import Mathlib

/-!
# tailwind.config.js

The repository is one CommonJS module whose whole content is the assignment
of an object literal to `module.exports`.  The literal is embedded as a value
of `JSValue`: object literals keep their properties in source order, array
literals keep their elements in source order, string literals keep their
characters, and a call `require('m')` is kept as a reference to the module
named `m`.  A trailing comma after the last property or element adds nothing.
-/

namespace TailwindConfig

/-- The JavaScript expressions that occur in `tailwind.config.js`. -/
inductive JSValue where
  | str : String → JSValue
  | arr : List JSValue → JSValue
  | obj : List (String × JSValue) → JSValue
  | require : String → JSValue

namespace JSValue

/-- Own property names of an object literal, in source order. -/
def keys : JSValue → Option (List String)
  | obj kvs => some (kvs.map Prod.fst)
  | _ => none

/-- Own-property lookup on an object literal. -/
def get? : JSValue → String → Option JSValue
  | obj kvs, k => kvs.lookup k
  | _, _ => none

/-- Chained own-property lookup. -/
def path : JSValue → List String → Option JSValue
  | v, [] => some v
  | v, k :: ks => (v.get? k).bind (fun w => path w ks)

/-- Elements of an array literal, in source order. -/
def elements : JSValue → Option (List JSValue)
  | arr vs => some vs
  | _ => none

/-- Characters of a string literal. -/
def asString : JSValue → Option String
  | str s => some s
  | _ => none

/-- The strings of a list of string literals; `none` as soon as one element
is not a string literal. -/
def strings : List JSValue → Option (List String)
  | [] => some []
  | v :: vs =>
    match v.asString, strings vs with
    | some s, some ss => some (s :: ss)
    | _, _ => none

/-- The strings of an array literal all of whose elements are string
literals. -/
def stringArray (v : JSValue) : Option (List String) :=
  v.elements.bind strings

end JSValue

open JSValue

/-- The object literal assigned to `module.exports` in `tailwind.config.js`. -/
def module_exports : JSValue :=
  obj [
    ("content", arr [
      str "./templates/**/*.html",
      str "./node_modules/flowbite/**/*.js"
    ]),
    ("theme", obj [
      ("extend", obj [])
    ]),
    ("plugins", arr [
      require "daisyui"
    ]),
    ("daisyui", obj [
      ("themes", arr [str "light", str "dark"])
    ])
  ]

/-! ## Reading the configuration

The build tool that loads this module is not part of the repository.  What
follows states how it reads the configuration: how the patterns of `content`
select files, and through which fields a configuration overrides default
styles.
-/

/-- Path segments of a pattern or of a file path: the runs of characters
between `/`. -/
def segments : List Char → List (List Char)
  | [] => [[]]
  | c :: cs =>
    if c = '/' then [] :: segments cs
    else
      match segments cs with
      | [] => [[c]]
      | s :: ss => (c :: s) :: ss

/-- Matching inside one path segment: `*` stands for any run of characters,
every other character for itself. -/
def segMatch : List Char → List Char → Bool
  | [], s => s.isEmpty
  | p :: ps, s =>
    if p = '*' then s.tails.any (segMatch ps)
    else
      match s with
      | [] => false
      | c :: cs => p == c && segMatch ps cs

/-- Matching of the segments of a pattern against the segments of a path: a
segment `**` stands for any number of directories, none included; any other
segment has to match the next segment of the path. -/
def matchSegs : List (List Char) → List (List Char) → Bool
  | [], fs => fs.isEmpty
  | p :: ps, fs =>
    if p = ['*', '*'] then fs.tails.any (matchSegs ps)
    else
      match fs with
      | [] => false
      | f :: fs => segMatch p f && matchSegs ps fs

/-- Segments of a pattern without its leading `.`, which names the directory
the pattern is resolved against. -/
def patternSegments (p : String) : List (List Char) :=
  match segments p.toList with
  | [] => []
  | s :: ss => if s = ['.'] then ss else s :: ss

/-- The pattern, resolved against some directory, matches the file path: the
directory is any leading run of segments of the path, so the path may be
written from the root, with a leading `./`, or without. -/
def selects (p f : String) : Bool :=
  (segments f.toList).tails.any (matchSegs (patternSegments p))

/-- The pattern is written with letters, digits, `.`, `/`, `_`, `-` and `*`
only, so `*` and `**` are its only wildcards. -/
def plainGlob (p : String) : Bool :=
  p.toList.all fun c => c.isAlphanum || c ∈ ['.', '/', '_', '-', '*']

/-- The pattern begins with `./`: it is relative to the configuration file. -/
def beginsDotSlash (p : String) : Bool :=
  "./".toList.isPrefixOf p.toList

/-- The pattern has a path segment that is exactly `**`. -/
def hasRecursiveWildcard (p : String) : Bool :=
  (segments p.toList).contains "**".toList

/-- Every file path the pattern selects ends in `ext`. -/
def selectsOnly (p ext : String) : Prop :=
  ∀ f : String, selects p f = true → ext.toList <:+ f.toList

/-- Names under which a configuration object overrides the default theme: a
key of `theme` other than `extend` replaces the default section of that name,
a key of `theme.extend` adds to or overrides entries of it. -/
def themeOverrides (cfg : JSValue) : List String :=
  (((cfg.get? "theme").bind keys).getD []).filter (fun k => k != "extend")
    ++ ((cfg.path ["theme", "extend"]).bind keys).getD []

/-- Top-level options by which a configuration object replaces or switches
off the defaults as a whole: `presets` replaces the default preset,
`corePlugins` switches default styles off. -/
def defaultSwitches (cfg : JSValue) : List String :=
  ["presets", "corePlugins"].filter (fun k => (cfg.get? k).isSome)

/-- What a configuration object overrides by its own fields. -/
def ownOverrides (cfg : JSValue) : List String :=
  themeOverrides cfg ++ defaultSwitches cfg

/-- The configuration objects carried by the registered plugins: the `config`
property of the module each `require` call of `plugins` loads.  `modules`
gives the exported value of a module by name; it belongs to the installed
packages, not to this file. -/
def pluginConfigs (modules : String → JSValue) (cfg : JSValue) : List JSValue :=
  (((cfg.get? "plugins").bind elements).getD []).filterMap fun p =>
    match p with
    | require m => (modules m).get? "config"
    | _ => none

/-- What a configuration overrides once the build tool has merged it with the
configuration objects of its plugins. -/
def overrides (modules : String → JSValue) (cfg : JSValue) : List String :=
  ownOverrides cfg ++ (pluginConfigs modules cfg).flatMap ownOverrides

/-- A module table in which `daisyui` exports a plugin whose configuration
extends the `colors` of the theme, and every other module an empty object. -/
def colorPluginModules : String → JSValue := fun m =>
  if m = "daisyui" then
    obj [("config", obj [("theme", obj [("extend", obj [("colors", obj [])])])])]
  else obj []

/-- A module table in which no module carries a configuration. -/
def plainModules : String → JSValue := fun _ => obj []

/-! ## Lemmas on the embedding -/

theorem content_eq :
    (module_exports.get? "content").bind stringArray
      = some ["./templates/**/*.html", "./node_modules/flowbite/**/*.js"] := by
  rfl

theorem plugins_eq :
    module_exports.get? "plugins" = some (arr [require "daisyui"]) := by
  rfl

theorem themes_eq :
    (module_exports.path ["daisyui", "themes"]).bind stringArray = some ["light", "dark"] := by
  rfl

/-- A property access on an object literal succeeds exactly on its keys. -/
theorem get?_isSome_iff (kvs : List (String × JSValue)) (k : String) :
    ((obj kvs).get? k).isSome = true ↔ k ∈ kvs.map Prod.fst := by
  induction kvs with
  | nil => simp [get?, List.lookup]
  | cons kv kvs ih =>
    obtain ⟨a, v⟩ := kv
    simp only [get?] at ih
    by_cases h : k = a
    · subst h
      simp [get?, List.lookup]
    · have hb : (k == a) = false := by simpa using h
      simp [get?, List.lookup, hb, h, ih]

/-- A segment pattern without `*` matches only itself. -/
theorem segMatch_literal (lit : List Char) (hlit : '*' ∉ lit) :
    ∀ s, segMatch lit s = true → s = lit := by
  induction lit with
  | nil =>
    intro s h
    cases s with
    | nil => rfl
    | cons c cs => simp [segMatch] at h
  | cons p ps ih =>
    intro s h
    have hp : p ≠ '*' := fun e => hlit (by simp [e])
    have hps : '*' ∉ ps := fun m => hlit (List.mem_cons_of_mem _ m)
    cases s with
    | nil => simp [segMatch, hp] at h
    | cons c cs =>
      simp only [segMatch, if_neg hp, Bool.and_eq_true, beq_iff_eq] at h
      rw [h.1, ih hps cs h.2]

/-- A segment pattern that ends in a run of characters without `*` matches
only segments that end in that run. -/
theorem segMatch_suffix (lit : List Char) (hlit : '*' ∉ lit) (q : List Char) :
    ∀ s, segMatch (q ++ lit) s = true → lit <:+ s := by
  induction q with
  | nil =>
    intro s h
    rw [segMatch_literal lit hlit s h]
  | cons p ps ih =>
    intro s h
    by_cases hp : p = '*'
    · simp only [List.cons_append, segMatch, if_pos hp, List.any_eq_true,
        List.mem_tails] at h
      obtain ⟨t, hts, ht⟩ := h
      exact (ih t ht).trans hts
    · cases s with
      | nil => simp [segMatch, hp] at h
      | cons c cs =>
        simp only [List.cons_append, segMatch, if_neg hp, Bool.and_eq_true] at h
        exact (ih cs h.2).trans (List.suffix_cons c cs)

/-- Every path has a segment. -/
theorem segments_ne_nil (cs : List Char) : segments cs ≠ [] := by
  cases cs with
  | nil => simp [segments]
  | cons c cs =>
    unfold segments
    split
    · simp
    · split <;> simp

/-- A path with one segment is that segment. -/
theorem segments_singleton : ∀ (cs s : List Char), segments cs = [s] → s = cs := by
  intro cs
  induction cs with
  | nil =>
    intro s h
    simpa [segments] using h.symm
  | cons c cs ih =>
    intro s h
    unfold segments at h
    split at h
    · simp only [List.cons.injEq] at h
      exact absurd h.2 (segments_ne_nil cs)
    · split at h
      · next hnil => exact absurd hnil (segments_ne_nil cs)
      · next s' ss hs =>
        simp only [List.cons.injEq] at h
        obtain ⟨h1, h2⟩ := h
        subst h2
        rw [← h1, ih s' hs]

/-- The last segment of a path is an end of the path. -/
theorem segments_last : ∀ (cs : List Char) (ys : List (List Char)) (g : List Char),
    segments cs = ys ++ [g] → g <:+ cs := by
  intro cs
  induction cs with
  | nil =>
    intro ys g h
    cases ys with
    | nil =>
      simp only [segments, List.nil_append, List.cons.injEq, and_true] at h
      subst h
      exact List.nil_suffix
    | cons y ys =>
      simp [segments] at h
  | cons c cs ih =>
    intro ys g h
    unfold segments at h
    split at h
    · cases ys with
      | nil =>
        simp only [List.nil_append, List.cons.injEq] at h
        rw [← h.1]
        exact List.nil_suffix
      | cons y ys =>
        simp only [List.cons_append, List.cons.injEq] at h
        exact (ih ys g h.2).trans (List.suffix_cons c cs)
    · split at h
      · next hnil => exact absurd hnil (segments_ne_nil cs)
      · next s ss hs =>
        cases ys with
        | nil =>
          simp only [List.nil_append, List.cons.injEq] at h
          obtain ⟨h1, h2⟩ := h
          subst h2
          rw [← h1, segments_singleton cs s hs]
        | cons y ys =>
          simp only [List.cons_append, List.cons.injEq] at h
          have h' : segments cs = (s :: ys) ++ [g] := by rw [hs, h.2]; rfl
          exact (ih (s :: ys) g h').trans (List.suffix_cons c cs)

/-- When the last segment of a pattern is not `**`, a path the pattern matches
has a last segment, and the last segment of the pattern matches it. -/
theorem matchSegs_last (l : List Char) (hl : l ≠ ['*', '*']) (Q : List Char → Prop)
    (hQ : ∀ g, segMatch l g = true → Q g) (pre : List (List Char)) :
    ∀ fs, matchSegs (pre ++ [l]) fs = true → ∃ ys g, fs = ys ++ [g] ∧ Q g := by
  induction pre with
  | nil =>
    intro fs h
    cases fs with
    | nil => simp [matchSegs, hl] at h
    | cons f fs =>
      simp only [List.nil_append, matchSegs, if_neg hl, Bool.and_eq_true,
        List.isEmpty_eq_true] at h
      exact ⟨[], f, by simp [h.2], hQ f h.1⟩
  | cons p pre ih =>
    intro fs h
    by_cases hp : p = ['*', '*']
    · simp only [List.cons_append, matchSegs, if_pos hp, List.any_eq_true,
        List.mem_tails] at h
      obtain ⟨t, ⟨r, hr⟩, ht⟩ := h
      obtain ⟨ys, g, hys, hg⟩ := ih t ht
      exact ⟨r ++ ys, g, by rw [← hr, hys, List.append_assoc], hg⟩
    · cases fs with
      | nil => simp [matchSegs, hp] at h
      | cons f fs =>
        simp only [List.cons_append, matchSegs, if_neg hp, Bool.and_eq_true] at h
        obtain ⟨ys, g, hys, hg⟩ := ih fs h.2
        exact ⟨f :: ys, g, by rw [hys]; rfl, hg⟩

/-- A pattern whose last segment ends in a run of characters without `*`
selects only paths that end in that run. -/
theorem selectsOnly_of_last (p ext : String) (pre : List (List Char)) (q : List Char)
    (hp : patternSegments p = pre ++ [q ++ ext.toList])
    (hq : q ++ ext.toList ≠ ['*', '*']) (hext : '*' ∉ ext.toList) :
    selectsOnly p ext := by
  intro f hf
  simp only [selects, List.any_eq_true, List.mem_tails] at hf
  obtain ⟨t, ⟨r, hr⟩, ht⟩ := hf
  rw [hp] at ht
  obtain ⟨ys, g, hys, hg⟩ := matchSegs_last (q ++ ext.toList) hq (fun g => ext.toList <:+ g)
    (segMatch_suffix ext.toList hext q) pre t ht
  have hseg : segments f.toList = (r ++ ys) ++ [g] := by
    rw [← hr, hys, List.append_assoc]
  exact hg.trans (segments_last f.toList (r ++ ys) g hseg)

/-- The plugins of the exported configuration carry what the module `daisyui`
carries. -/
theorem pluginConfigs_eq (modules : String → JSValue) :
    pluginConfigs modules module_exports = ((modules "daisyui").get? "config").toList := by
  have h : (module_exports.get? "plugins").bind elements = some [require "daisyui"] := rfl
  unfold pluginConfigs
  rw [h]
  cases hc : (modules "daisyui").get? "config" <;> simp [List.filterMap, hc]

/-! ## The claims -/

/-- C1, as stated, fails: the `plugins` list of the exported configuration
does not have exactly two elements. -/
theorem plugins_length_ne_two :
    ¬ ∃ l, module_exports.get? "plugins" = some (arr l) ∧ l.length = 2 := by
  rintro ⟨l, hl, hlen⟩
  rw [plugins_eq] at hl
  injection hl with hl
  injection hl with hl
  subst hl
  simp at hlen

/-- C1, amended: the exported configuration registers one third-party style
plugin; the `plugins` list has exactly one element, `require('daisyui')`. -/
theorem plugins_registers_daisyui :
    ∃ l, module_exports.get? "plugins" = some (arr l) ∧
      l.length = 1 ∧ l = [require "daisyui"] :=
  ⟨_, plugins_eq, rfl, rfl⟩

/-- C2: `daisyui.themes` of the exported configuration is the ordered list
`["light", "dark"]`: two elements, the first `"light"`, the second `"dark"`,
and the two names differ. -/
theorem daisyui_themes_light_dark :
    ∃ l, (module_exports.path ["daisyui", "themes"]).bind stringArray = some l ∧
      l = ["light", "dark"] ∧ l.length = 2 ∧
      l[0]? = some "light" ∧ l[1]? = some "dark" ∧ l.Nodup :=
  ⟨_, themes_eq, rfl, rfl, rfl, rfl, by decide⟩

/-- C3: the `content` list of the exported configuration is not empty and
each of its elements is a string that is not empty. -/
theorem content_nonempty_strings :
    ∃ l, (module_exports.get? "content").bind stringArray = some l ∧
      l ≠ [] ∧ ∀ s ∈ l, s ≠ "" := by
  refine ⟨_, content_eq, by simp, ?_⟩
  decide

/-- C4, as stated, fails: `theme.extend` is empty and `extend` is the only key
of `theme`, yet with a `daisyui` module whose plugin extends the `colors` of
the theme the configuration does override a default style. -/
theorem configuration_overrides_with_plugin :
    ¬ (module_exports.path ["theme", "extend"] = some (obj []) ∧
      (module_exports.get? "theme").bind keys = some ["extend"] ∧
      overrides colorPluginModules module_exports = []) := by
  rintro ⟨_, _, h⟩
  exact absurd h (by decide)

/-- C4, amended: `theme.extend` of the exported configuration is an object
without keys and `extend` is the only key of `theme`, so the configuration
overrides no default style by its own fields; what it overrides once merged
is what the registered plugin overrides, which is nothing when the plugin
carries no configuration. -/
theorem theme_extend_empty :
    module_exports.path ["theme", "extend"] = some (obj []) ∧
    (module_exports.path ["theme", "extend"]).bind keys = some [] ∧
    (module_exports.get? "theme").bind keys = some ["extend"] ∧
    ownOverrides module_exports = [] ∧
    (∀ modules : String → JSValue, overrides modules module_exports
      = (((modules "daisyui").get? "config").toList).flatMap ownOverrides) ∧
    overrides plainModules module_exports = [] := by
  refine ⟨rfl, rfl, rfl, by decide, ?_, by decide⟩
  intro modules
  have h : ownOverrides module_exports = [] := by decide
  rw [overrides, h, pluginConfigs_eq, List.nil_append]

/-- C5: whatever list of theme names the daisyUI plugin recognizes, as long
as it holds `"light"` and `"dark"`, each name listed in `daisyui.themes` is in
it. -/
theorem themes_subset_recognized (recognized : List String)
    (hlight : "light" ∈ recognized) (hdark : "dark" ∈ recognized) :
    ∃ l, (module_exports.path ["daisyui", "themes"]).bind stringArray = some l ∧
      ∀ t ∈ l, t ∈ recognized := by
  refine ⟨_, themes_eq, ?_⟩
  intro t ht
  simp only [List.mem_cons, List.mem_singleton, List.not_mem_nil, or_false] at ht
  rcases ht with rfl | rfl
  · exact hlight
  · exact hdark

/-- C5 at a reference list of three recognized names. -/
theorem themes_subset_recognized_witness :
    "light" ∈ ["light", "dark", "cupcake"] ∧ "dark" ∈ ["light", "dark", "cupcake"] ∧
    ∃ l, (module_exports.path ["daisyui", "themes"]).bind stringArray = some l ∧
      ∀ t ∈ l, t ∈ ["light", "dark", "cupcake"] :=
  ⟨by decide, by decide,
    themes_subset_recognized ["light", "dark", "cupcake"] (by decide) (by decide)⟩

/-- C6: the exported configuration has the four top-level keys `content`,
`theme`, `plugins` and `daisyui` and no other: a property access on it
succeeds on these four names only, and below them the only keys are
`theme.extend` and `daisyui.themes`. -/
theorem module_exports_keys :
    (∃ ks, module_exports.keys = some ks ∧
      ks = ["content", "theme", "plugins", "daisyui"] ∧ ks.length = 4 ∧ ks.Nodup) ∧
    (∀ k : String, (module_exports.get? k).isSome = true ↔
      k = "content" ∨ k = "theme" ∨ k = "plugins" ∨ k = "daisyui") ∧
    (module_exports.get? "theme").bind keys = some ["extend"] ∧
    (module_exports.get? "daisyui").bind keys = some ["themes"] := by
  refine ⟨⟨_, rfl, rfl, rfl, by decide⟩, ?_, rfl, rfl⟩
  intro k
  rw [module_exports, get?_isSome_iff]
  simp

/-- C7: `content` is the two patterns `./templates/**/*.html` and
`./node_modules/flowbite/**/*.js`, in that order; they differ, each begins
with `./`, has a segment `**` and no wildcard other than `*` and `**`, the
last segment of the first is `*.html` and of the second `*.js`, and every
path the first selects ends in `.html`, every path the second selects ends in
`.js`. -/
theorem content_patterns :
    ∃ p₁ p₂, (module_exports.get? "content").bind stringArray = some [p₁, p₂] ∧
      p₁ = "./templates/**/*.html" ∧ p₂ = "./node_modules/flowbite/**/*.js" ∧
      p₁ ≠ p₂ ∧
      beginsDotSlash p₁ = true ∧ beginsDotSlash p₂ = true ∧
      hasRecursiveWildcard p₁ = true ∧ hasRecursiveWildcard p₂ = true ∧
      plainGlob p₁ = true ∧ plainGlob p₂ = true ∧
      (segments p₁.toList).getLast? = some "*.html".toList ∧
      (segments p₂.toList).getLast? = some "*.js".toList ∧
      selectsOnly p₁ ".html" ∧ selectsOnly p₂ ".js" := by
  refine ⟨_, _, content_eq, rfl, rfl, by decide, by decide, by decide, by decide,
    by decide, by decide, by decide, by decide, by decide, ?_, ?_⟩
  · exact selectsOnly_of_last _ _ ["templates".toList, "**".toList] "*".toList
      (by decide) (by decide) (by decide)
  · exact selectsOnly_of_last _ _
      ["node_modules".toList, "flowbite".toList, "**".toList] "*".toList
      (by decide) (by decide) (by decide)

/-- C7 at four paths: the first pattern selects `./templates/index.html`
(no directory under `templates`) and `/srv/app/templates/a/b/index.html`
(written from the root), the second selects
`./node_modules/flowbite/plugin.js` and
`node_modules/flowbite/lib/esm/index.js`; each ends as the pattern does. -/
theorem content_patterns_witness :
    (selects "./templates/**/*.html" "./templates/index.html" = true ∧
      ".html".toList <:+ "./templates/index.html".toList) ∧
    (selects "./templates/**/*.html" "/srv/app/templates/a/b/index.html" = true ∧
      ".html".toList <:+ "/srv/app/templates/a/b/index.html".toList) ∧
    (selects "./node_modules/flowbite/**/*.js" "./node_modules/flowbite/plugin.js" = true ∧
      ".js".toList <:+ "./node_modules/flowbite/plugin.js".toList) ∧
    (selects "./node_modules/flowbite/**/*.js"
        "node_modules/flowbite/lib/esm/index.js" = true ∧
      ".js".toList <:+ "node_modules/flowbite/lib/esm/index.js".toList) := by
  obtain ⟨p₁, p₂, _, h₁, h₂, _, _, _, _, _, _, _, _, _, hs₁, hs₂⟩ := content_patterns
  subst h₁ h₂
  exact ⟨⟨by decide, hs₁ "./templates/index.html" (by decide)⟩,
    ⟨by decide, hs₁ "/srv/app/templates/a/b/index.html" (by decide)⟩,
    ⟨by decide, hs₂ "./node_modules/flowbite/plugin.js" (by decide)⟩,
    ⟨by decide, hs₂ "node_modules/flowbite/lib/esm/index.js" (by decide)⟩⟩

end TailwindConfig
